import Mathlib

/-!
Verification of the SEO text-analysis core in `server/index.js`.

The two operations with algorithmic content are `analyzeSEO` and
`insertKeywordIntelligently`.  Both are embedded here over `List Char`
(one character per JS UTF-16 code point for the inputs considered),
with JS `number` arithmetic modelled exactly over `ℚ` and the ambient
`Math.random()` source modelled as injected draw parameters
(a stream `rnd : Nat → ℚ` for `analyzeSEO`, two draws `u1 u2 : ℚ` for
`insertKeywordIntelligently`), each draw ranging over `[0,1)`.
-/

/-- Strings are modelled as lists of characters. -/
abbrev Str := List Char

/-- Character class of the JS regex `\s` (whitespace), the set matched by
`split(/\s+/)` and removed by `String.prototype.trim`. -/
def wsChars : Str :=
  [' ', '\t', '\n', '\r', '\u000B', '\u000C', '\u00A0', '\u1680',
   '\u2000', '\u2001', '\u2002', '\u2003', '\u2004', '\u2005', '\u2006',
   '\u2007', '\u2008', '\u2009', '\u200A', '\u2028', '\u2029', '\u202F',
   '\u205F', '\u3000', '\uFEFF']

/-- Whitespace test for the JS `\s` class. -/
def isWs (c : Char) : Bool := wsChars.contains c

/-- Character class of the sentence-terminator regex `[.!?]`. -/
def isPunct (c : Char) : Bool := c == '.' || c == '!' || c == '?'

/-- Character class of the JS regex `\w` (word character), kept by
`replace(/[^\w]/g, '')`. -/
def isWordChar (c : Char) : Bool :=
  ('a' ≤ c && c ≤ 'z') || ('A' ≤ c && c ≤ 'Z') || ('0' ≤ c && c ≤ '9') || c == '_'

/-- JS `String.prototype.toLowerCase`, character-wise (ASCII range). -/
def lower (s : Str) : Str := s.map Char.toLower

/-- JS `String.prototype.trim`: strip leading and trailing whitespace. -/
def trim (s : Str) : Str :=
  ((s.dropWhile isWs).reverse.dropWhile isWs).reverse

/-- JS `Math.round`: round half toward positive infinity. -/
def jsRound (q : ℚ) : ℤ := ⌊q + 1/2⌋

/-- JS `String.prototype.includes`: contiguous substring containment. -/
def jsIncludes (hay needle : Str) : Bool := decide (needle <:+: hay)

/-- Fuelled worker for `jsSplit`.  `jsSplitF p fuel s` mirrors JS
`s.split(/p+/)`: pieces are the maximal runs of characters not
satisfying `p`, with an empty leading (resp. trailing) piece when `s`
starts (resp. ends) with a run of `p`-characters, and `[""]` on the
empty string.  The fuel only bounds recursion depth; `fuel > s.length`
always suffices. -/
def jsSplitF (p : Char → Bool) : Nat → Str → List Str
  | 0, _ => []
  | fuel + 1, s =>
    let piece := s.takeWhile (fun c => !(p c))
    let rest := s.dropWhile (fun c => !(p c))
    match rest with
    | [] => [piece]
    | _ :: cs => piece :: jsSplitF p fuel (cs.dropWhile p)

/-- JS `s.split(/p+/)` for a character class `p`. -/
def jsSplit (p : Char → Bool) (s : Str) : List Str := jsSplitF p (s.length + 1) s

/-- Fuelled worker for `jsSplitKeep`, mirroring JS
`s.split(/([.!?]+\s*)/)`: the result alternates non-delimiter segments
(even indices) with the captured delimiter runs (odd indices), where a
delimiter run is a maximal run of `.`/`!`/`?` together with the
whitespace run that follows it. -/
def jsSplitKeepF : Nat → Str → List Str
  | 0, _ => []
  | fuel + 1, s =>
    let seg := s.takeWhile (fun c => !(isPunct c))
    let rest := s.dropWhile (fun c => !(isPunct c))
    match rest with
    | [] => [seg]
    | _ :: _ =>
      let punct := rest.takeWhile isPunct
      let rest2 := rest.dropWhile isPunct
      let sp := rest2.takeWhile isWs
      let rest3 := rest2.dropWhile isWs
      seg :: (punct ++ sp) :: jsSplitKeepF fuel rest3

/-- JS `text.split(/([.!?]+\s*)/)`, delimiters retained. -/
def jsSplitKeep (s : Str) : List Str := jsSplitKeepF (s.length + 1) s

/-- JS `Array.prototype.join(' ')`. -/
def joinSpace : List Str → Str
  | [] => []
  | [w] => w
  | w :: ws => w ++ ' ' :: joinSpace ws

/-- First match of the paragraph-delimiter regex `\n\s*\n` in the
string, returned as the text before the match together with the text
after it; `none` when the regex does not match.  The greedy `\s*`
extends the match to the last newline of the whitespace run that
follows the first newline. -/
def firstParaMatch : Str → Option (Str × Str)
  | [] => none
  | c :: cs =>
    let run := cs.takeWhile isWs
    if c == '\n' && run.contains '\n' then
      let pref := (run.reverse.dropWhile (fun d => !(d == '\n'))).reverse
      some ([], cs.drop pref.length)
    else
      match firstParaMatch cs with
      | none => none
      | some (pre, rest) => some (c :: pre, rest)

/-- Fuelled worker for JS `text.split(/\n\s*\n/)`. -/
def splitParasF : Nat → Str → List Str
  | 0, _ => []
  | fuel + 1, s =>
    match firstParaMatch s with
    | none => [s]
    | some (pre, rest) => pre :: splitParasF fuel rest

/-- JS `text.split(/\n\s*\n/)` (paragraph split). -/
def splitParas (s : Str) : List Str := splitParasF (s.length + 1) s

/-- Keyword candidate record produced by `analyzeSEO`. -/
structure KeywordCandidate where
  keyword : Str
  frequency : Nat
  relevance : ℚ
  searchVolume : ℤ
  difficulty : ℤ
deriving DecidableEq

/-- Suggestion type enumeration. -/
inductive SuggestionType where
  | readability
  | length
  | keywords
deriving DecidableEq

/-- Suggestion priority enumeration. -/
inductive Priority where
  | low
  | medium
  | high
deriving DecidableEq

/-- Suggestion record produced by `analyzeSEO`. -/
structure Suggestion where
  type : SuggestionType
  message : String
  priority : Priority
deriving DecidableEq

/-- Structural metrics record produced by `analyzeSEO`. -/
structure Metrics where
  wordCount : Nat
  sentenceCount : Nat
  paragraphCount : Nat
  readabilityScore : ℤ
  avgWordsPerSentence : ℚ
  avgSentencesPerParagraph : ℚ
deriving DecidableEq

/-- Analysis result record. -/
structure AnalysisResult where
  metrics : Metrics
  keywords : List KeywordCandidate
  suggestions : List Suggestion

/-- Stop-word list `commonWords` from `analyzeSEO`. -/
def commonWords : List Str :=
  ["the", "and", "or", "but", "in", "on", "at", "to", "for", "of", "with",
   "by", "is", "are", "was", "were", "be", "been", "have", "has", "had",
   "do", "does", "did", "will", "would", "could", "should", "may", "might",
   "can", "must", "shall", "a", "an", "this", "that", "these",
   "those"].map String.toList

/-- Fixed curated vocabulary `suggestedKeywords` from `analyzeSEO`. -/
def suggestedVocab : List Str :=
  ["digital marketing", "content strategy", "SEO optimization",
   "online presence", "brand awareness", "user engagement",
   "conversion rate", "social media", "target audience", "market research",
   "competitive analysis", "growth hacking"].map String.toList

/-- The word tokens of `analyzeSEO`:
`text.split(/\s+/).filter(word => word.length > 0)`. -/
def wordsOf (text : Str) : List Str :=
  (jsSplit isWs text).filter (fun w => decide (0 < w.length))

/-- The sentence tokens of `analyzeSEO`:
`text.split(/[.!?]+/).filter(s => s.trim().length > 0)`. -/
def sentencesOf (text : Str) : List Str :=
  (jsSplit isPunct text).filter (fun s => decide (0 < (trim s).length))

/-- The paragraph tokens of `analyzeSEO`:
`text.split(/\n\s*\n/).filter(p => p.trim().length > 0)`. -/
def parasOf (text : Str) : List Str :=
  (splitParas text).filter (fun p => decide (0 < (trim p).length))

/-- The value `avgWordsPerSentence` of `analyzeSEO` (before rounding). -/
def avgWordsPerSentenceRaw (text : Str) : ℚ :=
  if 0 < (sentencesOf text).length then
    ((wordsOf text).length : ℚ) / ((sentencesOf text).length : ℚ)
  else 0

/-- The value `avgSentencesPerParagraph` of `analyzeSEO` (before rounding). -/
def avgSentencesPerParagraphRaw (text : Str) : ℚ :=
  if 0 < (parasOf text).length then
    ((sentencesOf text).length : ℚ) / ((parasOf text).length : ℚ)
  else 0

/-- The clamped, unrounded `readabilityScore` of `analyzeSEO`:
`Math.max(0, Math.min(100, 206.835 - 1.015*avg - 84.6*1.5))`. -/
def readabilityRaw (text : Str) : ℚ :=
  max 0 (min 100 (206.835 - 1.015 * avgWordsPerSentenceRaw text - 84.6 * 1.5))

/-- The cleaned form of a word in the frequency count:
`word.toLowerCase().replace(/[^\w]/g, '')`. -/
def cleanWord (w : Str) : Str := (lower w).filter isWordChar

/-- One step of building `wordFreq`:
`wordFreq[cleanWord] = (wordFreq[cleanWord] || 0) + 1`, on an
association list in key-insertion order. -/
def bumpFreq (l : List (Str × Nat)) (w : Str) : List (Str × Nat) :=
  if l.any (fun p => p.1 == w) then
    l.map (fun p => if p.1 == w then (p.1, p.2 + 1) else p)
  else l ++ [(w, 1)]

/-- The `wordFreq` mapping of `analyzeSEO`, as an association list in
key-insertion order. -/
def wordFreq (text : Str) : List (Str × Nat) :=
  (wordsOf text).foldl
    (fun acc word =>
      let cw := cleanWord word
      if 3 < cw.length ∧ cw ∉ commonWords then bumpFreq acc cw else acc)
    []

/-- The `topKeywords` list of `analyzeSEO`: frequency entries sorted by
descending frequency, truncated to 10, each completed with a relevance
value and two random placeholder fields (draws `rnd (2*i)` and
`rnd (2*i + 1)` for the entry at position `i`). -/
def topKeywordsOf (text : Str) (rnd : Nat → ℚ) : List KeywordCandidate :=
  let entries := (wordFreq text).mergeSort (fun a b => b.2 ≤ a.2)
  (entries.take 10).enum.map (fun ie =>
    { keyword := ie.2.1
      frequency := ie.2.2
      relevance := min 100 ((ie.2.2 : ℚ) / ((wordsOf text).length : ℚ) * 1000)
      searchVolume := ⌊rnd (2 * ie.1) * 10000⌋ + 100
      difficulty := ⌊rnd (2 * ie.1 + 1) * 100⌋ + 1 })

/-- The curated `suggestedKeywords` list of `analyzeSEO`, before its
`slice(0, 8)`; entry `j` consumes draws `rnd (100 + 3*j)` through
`rnd (102 + 3*j)`. -/
def curatedKeywordsOf (rnd : Nat → ℚ) : List KeywordCandidate :=
  suggestedVocab.enum.map (fun je =>
    { keyword := je.2
      frequency := 0
      relevance := (⌊rnd (100 + 3 * je.1) * 80⌋ : ℚ) + 20
      searchVolume := ⌊rnd (100 + 3 * je.1 + 1) * 50000⌋ + 1000
      difficulty := ⌊rnd (100 + 3 * je.1 + 2) * 100⌋ + 1 })

/-- The mock SEO analysis function `analyzeSEO` of `server/index.js`. -/
def analyzeSEO (text : Str) (rnd : Nat → ℚ) : AnalysisResult :=
  let words := wordsOf text
  let sentences := sentencesOf text
  let paragraphs := parasOf text
  let readabilityScore := readabilityRaw text
  let topKeywords := topKeywordsOf text rnd
  { metrics :=
      { wordCount := words.length
        sentenceCount := sentences.length
        paragraphCount := paragraphs.length
        readabilityScore := jsRound readabilityScore
        avgWordsPerSentence := (jsRound (avgWordsPerSentenceRaw text * 10) : ℚ) / 10
        avgSentencesPerParagraph :=
          (jsRound (avgSentencesPerParagraphRaw text * 10) : ℚ) / 10 }
    keywords := topKeywords ++ (curatedKeywordsOf rnd).take 8
    suggestions :=
      [ { type := .readability
          message :=
            if readabilityScore < 30 then
              "Text is quite difficult to read. Consider shorter sentences."
            else if readabilityScore < 60 then
              "Text readability is moderate. Could be improved with simpler language."
            else "Text has good readability for general audience."
          priority :=
            if readabilityScore < 30 then .high
            else if readabilityScore < 60 then .medium
            else .low }
      , { type := .length
          message :=
            if words.length < 300 then
              "Content is quite short. Consider expanding for better SEO."
            else if 2000 < words.length then
              "Content is very long. Consider breaking into sections."
            else "Content length is appropriate for SEO."
          priority :=
            if words.length < 300 ∨ 2000 < words.length then .medium else .low }
      , { type := .keywords
          message :=
            if topKeywords.length < 5 then
              "Limited keyword diversity. Consider adding more relevant terms."
            else "Good keyword diversity detected."
          priority := if topKeywords.length < 5 then .high else .low } ] }

/-- Validation failure of the HTTP boundary (status-400 responses). -/
inductive ValidationError where
  | textRequired
  | textTooLong
deriving DecidableEq

/-- The `/api/analyze` endpoint: validation followed by `analyzeSEO`. -/
def analyzeEndpoint (text : Str) (rnd : Nat → ℚ) :
    Except ValidationError AnalysisResult :=
  if text.isEmpty || (trim text).isEmpty then .error .textRequired
  else if 50000 < text.length then .error .textTooLong
  else .ok (analyzeSEO text rnd)

/-- Connector word list of `insertKeywordIntelligently`. -/
def connectors : List Str :=
  ["including", "such as", "like", "especially", "particularly"].map
    String.toList

/-- Qualification test of the scoring loop: the entry at index `i` of
the delimiter-retaining split is skipped when it is empty or its
trimmed length is below 10 (`!sentence || sentence.trim().length < 10`). -/
def qualifies (sents : List Str) (i : Nat) : Bool :=
  let sentence := sents.getD i []
  !(sentence.isEmpty) && decide (10 ≤ (trim sentence).length)

/-- Score of the entry at index `i` of the delimiter-retaining split
array `sents`, exactly as the loop body computes it:
`0.6 * min(words/20, 1) + 0.4 * (1 - |i - sents.length/2| / sents.length)`.
Note that both `i` and `sents.length` count delimiter entries too. -/
def segScore (sents : List Str) (i : Nat) : ℚ :=
  let sentence := sents.getD i []
  let sentenceWords := jsSplit isWs (lower sentence)
  let lengthScore := min ((sentenceWords.length : ℚ) / 20) 1
  let positionScore :=
    1 - |(i : ℚ) - (sents.length : ℚ) / 2| / (sents.length : ℚ)
  0.6 * lengthScore + 0.4 * positionScore

/-- One iteration of the best-position loop: keep the accumulator on a
skipped entry, otherwise update it when the score strictly exceeds the
best score so far. -/
def selStep (pred : Nat → Bool) (f : Nat → ℚ) (acc : Nat × ℚ) (i : Nat) :
    Nat × ℚ :=
  if pred i then (if acc.2 < f i then (i, f i) else acc) else acc

/-- The even indices `0, 2, 4, …` visited by the scoring loop
(`for (let i = 0; i < sentences.length; i += 2)`). -/
def evenIdxs (n : Nat) : List Nat :=
  (List.range n).filter (fun i => i % 2 == 0)

/-- The `bestPosition` computed by `insertKeywordIntelligently`'s
scoring loop, starting from `(bestPosition, bestScore) = (0, 0)`. -/
def bestPosition (sents : List Str) : Nat :=
  ((evenIdxs sents.length).foldl
    (selStep (qualifies sents) (segScore sents)) (0, 0)).1

/-- The replacement segment built by `insertKeywordIntelligently` for
the chosen sentence: split the sentence on whitespace, compute
`insertIndex = floor(0.3*n) + floor(u1 * floor(0.4*n))`, then join
`words[0:insertIndex]`, a connector drawn by `u2`, the keyword and
`words[insertIndex:]` with single spaces. -/
def newSegOf (text keyword : Str) (u1 u2 : ℚ) : Str :=
  let sentence := (jsSplitKeep text).getD (bestPosition (jsSplitKeep text)) []
  let ws := jsSplit isWs sentence
  let insertIndex :=
    (⌊(ws.length : ℚ) * 0.3⌋ + ⌊u1 * (⌊(ws.length : ℚ) * 0.4⌋ : ℚ)⌋).toNat
  let beforeKeyword := joinSpace (ws.take insertIndex)
  let afterKeyword := joinSpace (ws.drop insertIndex)
  let connector := connectors.getD (⌊u2 * 5⌋).toNat []
  beforeKeyword ++ ' ' :: connector ++ ' ' :: keyword ++ ' ' :: afterKeyword

/-- The smart keyword-insertion function `insertKeywordIntelligently`
of `server/index.js`.  `u1` is the `Math.random()` draw for the
insertion offset, `u2` the draw for the connector choice. -/
def insertKeywordIntelligently (text keyword : Str) (u1 u2 : ℚ) : Str :=
  let sentences := jsSplitKeep text
  let words := jsSplit isWs (lower text)
  if words.any (fun word => jsIncludes word (lower keyword)) then text
  else
    let bestPos := bestPosition sentences
    if bestPos < sentences.length ∧ ¬(sentences.getD bestPos []).isEmpty then
      (sentences.set bestPos (newSegOf text keyword u1 u2)).flatten
    else sentences.flatten

/-- The `/api/insert-keyword` endpoint's response data:
`{updatedText, inserted: updatedText !== text}`. -/
def insertKeywordResult (text keyword : Str) (u1 u2 : ℚ) : Str × Bool :=
  let updatedText := insertKeywordIntelligently text keyword u1 u2
  (updatedText, updatedText != text)

/-- Number of maximal runs of characters not satisfying `p`, tracked
with a flag recording whether the scan is currently inside such a run.
This is the specification-side counter of "non-empty maximal
whitespace-delimited tokens". -/
def countRunsAux (p : Char → Bool) : Str → Bool → Nat
  | [], _ => 0
  | c :: cs, inRun =>
    if p c then countRunsAux p cs false
    else (if inRun then 0 else 1) + countRunsAux p cs true

/-- Number of maximal runs of characters not satisfying `p` in `s`. -/
def countRuns (p : Char → Bool) (s : Str) : Nat := countRunsAux p s false

/-- Entries at even positions of a list: the non-delimiter segments of
a delimiter-retaining split. -/
def evens {α : Type} : List α → List α
  | [] => []
  | [a] => [a]
  | a :: _ :: rest => a :: evens rest

/-- The retained (non-punctuation) sentence segments of a text, in
document order. -/
def retainedSegs (text : Str) : List Str := evens (jsSplitKeep text)

/-- Modelled from the spec sentence of C1: the candidate score with
`positionScore = 1 - |segmentIndex - totalSegments/2| / totalSegments`
where `segmentIndex` and `totalSegments` range over the retained
segments only (delimiter entries not counted), to be compared against
`segScore`, which the code computes from the raw split-array index and
the raw array length. -/
def specSegScore (text : Str) (j : Nat) : ℚ :=
  let segs := retainedSegs text
  let wc := (jsSplit isWs (lower (segs.getD j []))).length
  0.6 * min ((wc : ℚ) / 20) 1 +
    0.4 * (1 - |(j : ℚ) - (segs.length : ℚ) / 2| / (segs.length : ℚ))

lemma length_dropWhile_le (p : Char → Bool) (l : Str) :
    (l.dropWhile p).length ≤ l.length := by
  have h := congrArg List.length (List.takeWhile_append_dropWhile p l)
  simp only [List.length_append] at h
  omega

lemma dropWhile_eq_cons_head (p : Char → Bool) (l : Str) (c : Char)
    (cs : List Char) (h : l.dropWhile p = c :: cs) : p c = false := by
  have h' : l.dropWhile p ≠ [] := by simp [h]
  have h2 := List.head_dropWhile_not p l h'
  simp only [h, List.head_cons] at h2
  exact h2

lemma countRunsAux_append_run_true (p : Char → Bool) (t r : Str)
    (ht : ∀ c ∈ t, p c = false) :
    countRunsAux p (t ++ r) true = countRunsAux p r true := by
  induction t with
  | nil => rfl
  | cons c t ih =>
    have hc : p c = false := ht c (List.mem_cons_self c t)
    rw [List.cons_append]
    show countRunsAux p (c :: (t ++ r)) true = countRunsAux p r true
    rw [countRunsAux, hc]
    simp only [Bool.false_eq_true, if_false, if_true]
    rw [ih (fun d hd => ht d (List.mem_cons_of_mem c hd))]
    omega

lemma countRunsAux_append_run_false (p : Char → Bool) (t r : Str)
    (ht : ∀ c ∈ t, p c = false) (hne : t ≠ []) :
    countRunsAux p (t ++ r) false = 1 + countRunsAux p r true := by
  cases t with
  | nil => exact absurd rfl hne
  | cons c t =>
    have hc : p c = false := ht c (List.mem_cons_self c t)
    rw [List.cons_append]
    show countRunsAux p (c :: (t ++ r)) false = 1 + countRunsAux p r true
    rw [countRunsAux, hc]
    simp only [Bool.false_eq_true, if_false]
    rw [countRunsAux_append_run_true p t r
      (fun d hd => ht d (List.mem_cons_of_mem c hd))]

lemma countRunsAux_append_gap (p : Char → Bool) (t r : Str) (b : Bool)
    (ht : ∀ c ∈ t, p c = true) (hne : t ≠ []) :
    countRunsAux p (t ++ r) b = countRunsAux p r false := by
  induction t generalizing b with
  | nil => exact absurd rfl hne
  | cons c t ih =>
    have hc : p c = true := ht c (List.mem_cons_self c t)
    rw [List.cons_append]
    show countRunsAux p (c :: (t ++ r)) b = countRunsAux p r false
    rw [countRunsAux, hc]
    simp only [if_true]
    cases t with
    | nil => rfl
    | cons d t2 =>
      exact ih false (fun e he => ht e (List.mem_cons_of_mem c he)) (by simp)

lemma jsSplitF_succ (p : Char → Bool) (f : Nat) (s : Str) :
    jsSplitF p (f + 1) s =
      match s.dropWhile (fun c => !(p c)) with
      | [] => [s.takeWhile (fun c => !(p c))]
      | _ :: cs =>
        s.takeWhile (fun c => !(p c)) :: jsSplitF p f (cs.dropWhile p) := rfl

lemma jsSplitF_no_p (p : Char → Bool) (fuel : Nat) (s piece : Str)
    (hmem : piece ∈ jsSplitF p fuel s) (c : Char) (hc : c ∈ piece) :
    p c = false := by
  induction fuel generalizing s piece with
  | zero => simp [jsSplitF] at hmem
  | succ f ih =>
    rw [jsSplitF_succ] at hmem
    rcases hrest : s.dropWhile (fun c => !(p c)) with _ | ⟨c0, cs⟩
    · rw [hrest] at hmem
      simp only [List.mem_singleton] at hmem
      subst hmem
      have := List.mem_takeWhile_imp hc
      simpa using this
    · rw [hrest] at hmem
      simp only [List.mem_cons] at hmem
      rcases hmem with rfl | hmem
      · have := List.mem_takeWhile_imp hc
        simpa using this
      · exact ih (cs.dropWhile p) piece hmem hc

lemma flatten_jsSplitF (p : Char → Bool) (fuel : Nat) (s : Str)
    (h : s.length < fuel) :
    (jsSplitF p fuel s).flatten = s.filter (fun c => !(p c)) := by
  induction fuel generalizing s with
  | zero => omega
  | succ f ih =>
    rw [jsSplitF_succ]
    rcases hrest : s.dropWhile (fun c => !(p c)) with _ | ⟨c0, cs⟩
    · have hs : s.takeWhile (fun c => !(p c)) = s := by
        conv_rhs => rw [← List.takeWhile_append_dropWhile (fun c => !(p c)) s]
        rw [hrest, List.append_nil]
      have hfil : s.filter (fun c => !(p c)) = s := by
        apply List.filter_eq_self.mpr
        intro a ha
        have h2 : a ∈ s.takeWhile (fun c => !(p c)) := by rwa [hs]
        exact List.mem_takeWhile_imp (p := fun c => !(p c)) h2
      simp [hs, hfil]
    · have hc0 : p c0 = true := by
        have := dropWhile_eq_cons_head (fun c => !(p c)) s c0 cs hrest
        simpa using this
      have hlen : (cs.dropWhile p).length < f := by
        have h1 : (cs.dropWhile p).length ≤ cs.length := length_dropWhile_le p cs
        have h2 : (s.dropWhile (fun c => !(p c))).length ≤ s.length :=
          length_dropWhile_le (fun c => !(p c)) s
        rw [hrest] at h2
        simp only [List.length_cons] at h2
        omega
      simp only [List.flatten_cons]
      rw [ih (cs.dropWhile p) hlen]
      conv_rhs => rw [← List.takeWhile_append_dropWhile (fun c => !(p c)) s]
      rw [List.filter_append, hrest]
      have htk : (s.takeWhile (fun c => !(p c))).filter (fun c => !(p c)) =
          s.takeWhile (fun c => !(p c)) := by
        apply List.filter_eq_self.mpr
        intro a ha
        exact List.mem_takeWhile_imp (p := fun c => !(p c)) ha
      rw [htk, List.filter_cons, hc0]
      simp only [Bool.not_true, Bool.false_eq_true, if_false]
      conv_rhs => rw [← List.takeWhile_append_dropWhile p cs, List.filter_append]
      have htk2 : (cs.takeWhile p).filter (fun c => !(p c)) = [] := by
        rw [List.filter_eq_nil_iff]
        intro a ha
        have := List.mem_takeWhile_imp ha
        simp [this]
      rw [htk2, List.nil_append]

lemma filterLen_jsSplitF (p : Char → Bool) (fuel : Nat) (s : Str)
    (h : s.length < fuel) :
    ((jsSplitF p fuel s).filter (fun w => decide (0 < w.length))).length =
      countRunsAux p s false := by
  induction fuel generalizing s with
  | zero => omega
  | succ f ih =>
    rw [jsSplitF_succ]
    rcases hrest : s.dropWhile (fun c => !(p c)) with _ | ⟨c0, cs⟩
    · have hs : s.takeWhile (fun c => !(p c)) = s := by
        conv_rhs => rw [← List.takeWhile_append_dropWhile (fun c => !(p c)) s]
        rw [hrest, List.append_nil]
      have hall : ∀ c ∈ s, p c = false := by
        intro c hc
        have h2 : c ∈ s.takeWhile (fun c => !(p c)) := by rwa [hs]
        have h3 := List.mem_takeWhile_imp h2
        simpa using h3
      show (List.filter (fun w => decide (0 < w.length))
        [s.takeWhile (fun c => !(p c))]).length = countRunsAux p s false
      rw [hs]
      cases hse : s with
      | nil => simp [countRunsAux]
      | cons a as =>
        have hne : s ≠ [] := by simp [hse]
        have h1 := countRunsAux_append_run_false p s [] hall hne
        rw [List.append_nil] at h1
        rw [hse] at h1
        rw [h1]
        simp [countRunsAux]
    · have hc0 : p c0 = true := by
        have := dropWhile_eq_cons_head (fun c => !(p c)) s c0 cs hrest
        simpa using this
      have hlen : (cs.dropWhile p).length < f := by
        have h1 : (cs.dropWhile p).length ≤ cs.length := length_dropWhile_le p cs
        have h2 : (s.dropWhile (fun c => !(p c))).length ≤ s.length :=
          length_dropWhile_le (fun c => !(p c)) s
        rw [hrest] at h2
        simp only [List.length_cons] at h2
        omega
      have hsplit : s = s.takeWhile (fun c => !(p c)) ++
          ((c0 :: cs.takeWhile p) ++ cs.dropWhile p) := by
        conv_lhs => rw [← List.takeWhile_append_dropWhile (fun c => !(p c)) s]
        rw [hrest]
        congr 1
        simp [List.takeWhile_append_dropWhile]
      have htkall : ∀ c ∈ s.takeWhile (fun c => !(p c)), p c = false := by
        intro c hc
        have h2 := List.mem_takeWhile_imp (p := fun c => !(p c)) hc
        simpa using h2
      have hgapall : ∀ c ∈ c0 :: cs.takeWhile p, p c = true := by
        intro c hc
        rcases List.mem_cons.mp hc with rfl | hc
        · exact hc0
        · exact List.mem_takeWhile_imp hc
      cases htk : s.takeWhile (fun c => !(p c)) with
      | nil =>
        rw [htk] at hsplit
        rw [List.nil_append] at hsplit
        conv_rhs => rw [hsplit]
        rw [countRunsAux_append_gap p (c0 :: cs.takeWhile p) (cs.dropWhile p)
          false hgapall (by simp)]
        rw [← ih (cs.dropWhile p) hlen]
        simp [List.filter_cons]
      | cons a as =>
        rw [htk] at hsplit htkall
        conv_rhs => rw [hsplit]
        rw [countRunsAux_append_run_false p (a :: as) _ htkall (by simp)]
        rw [countRunsAux_append_gap p (c0 :: cs.takeWhile p) (cs.dropWhile p)
          true hgapall (by simp)]
        rw [← ih (cs.dropWhile p) hlen]
        simp [List.filter_cons, Nat.add_comm]

lemma jsSplitKeepF_succ (f : Nat) (s : Str) :
    jsSplitKeepF (f + 1) s =
      match s.dropWhile (fun c => !(isPunct c)) with
      | [] => [s.takeWhile (fun c => !(isPunct c))]
      | _ :: _ =>
        s.takeWhile (fun c => !(isPunct c)) ::
          ((s.dropWhile (fun c => !(isPunct c))).takeWhile isPunct ++
            ((s.dropWhile (fun c => !(isPunct c))).dropWhile
              isPunct).takeWhile isWs) ::
          jsSplitKeepF f (((s.dropWhile (fun c => !(isPunct c))).dropWhile
            isPunct).dropWhile isWs) := rfl

lemma flatten_jsSplitKeepF (fuel : Nat) (s : Str) (h : s.length < fuel) :
    (jsSplitKeepF fuel s).flatten = s := by
  induction fuel generalizing s with
  | zero => omega
  | succ f ih =>
    rw [jsSplitKeepF_succ]
    rcases hrest : s.dropWhile (fun c => !(isPunct c)) with _ | ⟨c0, cs⟩
    · have hs : s.takeWhile (fun c => !(isPunct c)) = s := by
        conv_rhs => rw [← List.takeWhile_append_dropWhile (fun c =>
          !(isPunct c)) s]
        rw [hrest, List.append_nil]
      simp [hs]
    · have hc0 : isPunct c0 = true := by
        have := dropWhile_eq_cons_head (fun c => !(isPunct c)) s c0 cs hrest
        simpa using this
      have hlen : (((c0 :: cs).dropWhile isPunct).dropWhile isWs).length
          < f := by
        have h1 : ((c0 :: cs).dropWhile isPunct) = cs.dropWhile isPunct := by
          simp [List.dropWhile_cons, hc0]
        rw [h1]
        have h2 : (cs.dropWhile isPunct).length ≤ cs.length :=
          length_dropWhile_le isPunct cs
        have h3 : ((cs.dropWhile isPunct).dropWhile isWs).length ≤
            (cs.dropWhile isPunct).length :=
          length_dropWhile_le isWs _
        have h4 : (s.dropWhile (fun c => !(isPunct c))).length ≤ s.length :=
          length_dropWhile_le (fun c => !(isPunct c)) s
        rw [hrest] at h4
        simp only [List.length_cons] at h4
        omega
      simp only [List.flatten_cons]
      rw [ih _ hlen]
      conv_rhs => rw [← List.takeWhile_append_dropWhile (fun c =>
        !(isPunct c)) s]
      rw [hrest]
      simp only [List.append_assoc, List.append_cancel_left_eq]
      conv_rhs => rw [← List.takeWhile_append_dropWhile isPunct (c0 :: cs)]
      simp only [List.append_assoc, List.append_cancel_left_eq]
      exact List.takeWhile_append_dropWhile isWs _

lemma jsSplitKeep_ne_nil (s : Str) : jsSplitKeep s ≠ [] := by
  rw [jsSplitKeep, jsSplitKeepF_succ]
  rcases s.dropWhile (fun c => !(isPunct c)) with _ | ⟨c0, cs⟩ <;> simp

/-- Reassembly: `text.split(/([.!?]+\s*)/).join('')` is the identity. -/
lemma flatten_jsSplitKeep (s : Str) : (jsSplitKeep s).flatten = s :=
  flatten_jsSplitKeepF (s.length + 1) s (Nat.lt_succ_self _)

/-- Reassembly for the delimiter-discarding split: joining the pieces
recovers the text minus its delimiter characters. -/
lemma flatten_jsSplit (p : Char → Bool) (s : Str) :
    (jsSplit p s).flatten = s.filter (fun c => !(p c)) :=
  flatten_jsSplitF p (s.length + 1) s (Nat.lt_succ_self _)

/-- Pieces of `s.split(/p+/)` are free of `p`-characters. -/
lemma jsSplit_no_p (p : Char → Bool) (s piece : Str)
    (hmem : piece ∈ jsSplit p s) (c : Char) (hc : c ∈ piece) : p c = false :=
  jsSplitF_no_p p (s.length + 1) s piece hmem c hc

/-- The filtered piece count of `s.split(/p+/)` is the number of
maximal runs of non-`p` characters. -/
lemma filterLen_jsSplit (p : Char → Bool) (s : Str) :
    ((jsSplit p s).filter (fun w => decide (0 < w.length))).length =
      countRuns p s :=
  filterLen_jsSplitF p (s.length + 1) s (Nat.lt_succ_self _)

lemma selStep_skip (pred : Nat → Bool) (f : Nat → ℚ) (l : List Nat)
    (acc : Nat × ℚ) (h : ∀ i ∈ l, pred i = false) :
    l.foldl (selStep pred f) acc = acc := by
  induction l generalizing acc with
  | nil => rfl
  | cons i l ih =>
    have hi : pred i = false := h i (List.mem_cons_self i l)
    rw [List.foldl_cons, selStep, hi]
    simp only [Bool.false_eq_true, if_false]
    exact ih acc (fun j hj => h j (List.mem_cons_of_mem i hj))

/-- Characterization of the strict-improvement fold: started at `(0, 0)`
on a strictly increasing index list containing at least one qualifying
index with positive score, it returns the first qualifying index of
maximal score, together with that score. -/
lemma selStep_argmax (pred : Nat → Bool) (f : Nat → ℚ) (l : List Nat)
    (hsort : l.Pairwise (· < ·))
    (hpos : ∀ i ∈ l, pred i = true → 0 < f i)
    (hex : ∃ i ∈ l, pred i = true) :
    (l.foldl (selStep pred f) (0, 0)).1 ∈ l ∧
    pred (l.foldl (selStep pred f) (0, 0)).1 = true ∧
    (l.foldl (selStep pred f) (0, 0)).2 =
      f (l.foldl (selStep pred f) (0, 0)).1 ∧
    (∀ i ∈ l, pred i = true →
      f i ≤ (l.foldl (selStep pred f) (0, 0)).2) ∧
    (∀ i ∈ l, pred i = true → i < (l.foldl (selStep pred f) (0, 0)).1 →
      f i < (l.foldl (selStep pred f) (0, 0)).2) := by
  induction l using List.reverseRecOn with
  | nil => simp at hex
  | append_singleton l j ih =>
    have hsort' : l.Pairwise (· < ·) :=
      (List.pairwise_append.mp hsort).1
    have hlj : ∀ i ∈ l, i < j := by
      intro i hi
      exact (List.pairwise_append.mp hsort).2.2 i hi j
        (List.mem_singleton.mpr rfl)
    rw [List.foldl_append, List.foldl_cons, List.foldl_nil]
    by_cases hq : ∃ i ∈ l, pred i = true
    · obtain ⟨hm, hp, hs, hmax, hfirst⟩ := ih hsort'
        (fun i hi => hpos i (List.mem_append_left _ hi)) hq
      set r := l.foldl (selStep pred f) (0, 0) with hr
      by_cases hpj : pred j = true
      · by_cases himp : r.2 < f j
        · have hstep : selStep pred f r j = (j, f j) := by
            simp [selStep, hpj, himp]
          rw [hstep]
          refine ⟨List.mem_append_right _ (List.mem_singleton.mpr rfl), hpj,
            rfl, ?_, ?_⟩
          · intro i hi hpi
            rcases List.mem_append.mp hi with hi | hi
            · exact le_of_lt (lt_of_le_of_lt (hmax i hi hpi) himp)
            · rw [List.mem_singleton.mp hi]
          · intro i hi hpi hij
            rcases List.mem_append.mp hi with hi | hi
            · exact lt_of_le_of_lt (hmax i hi hpi) himp
            · rw [List.mem_singleton.mp hi] at hij
              exact absurd hij (lt_irrefl j)
        · have hstep : selStep pred f r j = r := by
            simp [selStep, hpj, himp]
          rw [hstep]
          refine ⟨List.mem_append_left _ hm, hp, hs, ?_, ?_⟩
          · intro i hi hpi
            rcases List.mem_append.mp hi with hi | hi
            · exact hmax i hi hpi
            · rw [List.mem_singleton.mp hi]
              exact le_of_not_lt himp
          · intro i hi hpi hij
            rcases List.mem_append.mp hi with hi | hi
            · exact hfirst i hi hpi hij
            · exfalso
              rw [List.mem_singleton.mp hi] at hij
              exact absurd (lt_trans (hlj r.1 hm) hij) (lt_irrefl r.1)
      · have hstep : selStep pred f r j = r := by
          simp [selStep, hpj]
        rw [hstep]
        refine ⟨List.mem_append_left _ hm, hp, hs, ?_, ?_⟩
        · intro i hi hpi
          rcases List.mem_append.mp hi with hi | hi
          · exact hmax i hi hpi
          · rw [List.mem_singleton.mp hi] at hpi
            exact absurd hpi hpj
        · intro i hi hpi hij
          rcases List.mem_append.mp hi with hi | hi
          · exact hfirst i hi hpi hij
          · rw [List.mem_singleton.mp hi] at hpi
            exact absurd hpi hpj
    · have hl0 : l.foldl (selStep pred f) (0, 0) = ((0 : Nat), (0 : ℚ)) :=
        selStep_skip pred f l (0, 0) (fun i hi => by
          by_contra hc
          exact hq ⟨i, hi, by simpa using hc⟩)
      rw [hl0]
      have hpj : pred j = true := by
        rcases hex with ⟨i, hi, hpi⟩
        rcases List.mem_append.mp hi with hi | hi
        · exact absurd ⟨i, hi, hpi⟩ hq
        · rwa [← List.mem_singleton.mp hi]
      have hfj : (0 : ℚ) < f j :=
        hpos j (List.mem_append_right _ (List.mem_singleton.mpr rfl)) hpj
      have hstep : selStep pred f ((0 : Nat), (0 : ℚ)) j = (j, f j) := by
        simp [selStep, hpj, hfj]
      rw [hstep]
      refine ⟨List.mem_append_right _ (List.mem_singleton.mpr rfl), hpj,
        rfl, ?_, ?_⟩
      · intro i hi hpi
        rcases List.mem_append.mp hi with hi | hi
        · exact absurd ⟨i, hi, hpi⟩ hq
        · rw [List.mem_singleton.mp hi]
      · intro i hi hpi hij
        rcases List.mem_append.mp hi with hi | hi
        · exact absurd ⟨i, hi, hpi⟩ hq
        · rw [List.mem_singleton.mp hi] at hij
          exact absurd hij (lt_irrefl j)

lemma mem_evenIdxs (n i : Nat) : i ∈ evenIdxs n ↔ i < n ∧ i % 2 = 0 := by
  simp [evenIdxs, List.mem_filter, List.mem_range]

lemma evenIdxs_pairwise (n : Nat) : (evenIdxs n).Pairwise (· < ·) :=
  (List.pairwise_lt_range n).filter _

lemma segScore_pos (sents : List Str) (i : Nat) (hi : i < sents.length) :
    0 < segScore sents i := by
  rw [segScore]
  set w := ((jsSplit isWs (lower (sents.getD i []))).length : ℚ) with hw
  have hL1 : (1 : ℚ) ≤ (sents.length : ℚ) := by
    have : 1 ≤ sents.length := Nat.one_le_iff_ne_zero.mpr (by omega)
    exact_mod_cast this
  have hL0 : (0 : ℚ) < (sents.length : ℚ) := lt_of_lt_of_le one_pos hL1
  have hls : (0 : ℚ) ≤ min (w / 20) 1 := by
    apply le_min
    · positivity
    · norm_num
  have hiL : (i : ℚ) < (sents.length : ℚ) := by exact_mod_cast hi
  have hi0 : (0 : ℚ) ≤ (i : ℚ) := Nat.cast_nonneg i
  have habs : |(i : ℚ) - (sents.length : ℚ) / 2| ≤ (sents.length : ℚ) / 2 := by
    rw [abs_le]
    constructor <;> linarith
  have hdiv : |(i : ℚ) - (sents.length : ℚ) / 2| / (sents.length : ℚ) ≤
      ((sents.length : ℚ) / 2) / (sents.length : ℚ) :=
    (div_le_div_iff_of_pos_right hL0).mpr habs
  have hhalf : ((sents.length : ℚ) / 2) / (sents.length : ℚ) = 1 / 2 := by
    field_simp
    ring
  rw [hhalf] at hdiv
  linarith

lemma bestPosition_of_no_qualifier (sents : List Str)
    (h : ∀ i ∈ evenIdxs sents.length, qualifies sents i = false) :
    bestPosition sents = 0 := by
  rw [bestPosition, selStep_skip (qualifies sents) (segScore sents) _ _ h]

/-- When at least one even index qualifies, `bestPosition` returns the
first qualifying even index whose score is maximal among all
qualifying even indices. -/
lemma bestPosition_argmax (sents : List Str)
    (hex : ∃ i ∈ evenIdxs sents.length, qualifies sents i = true) :
    bestPosition sents ∈ evenIdxs sents.length ∧
    qualifies sents (bestPosition sents) = true ∧
    (∀ i ∈ evenIdxs sents.length, qualifies sents i = true →
      segScore sents i ≤ segScore sents (bestPosition sents)) ∧
    (∀ i ∈ evenIdxs sents.length, qualifies sents i = true →
      i < bestPosition sents →
      segScore sents i < segScore sents (bestPosition sents)) := by
  have hpos : ∀ i ∈ evenIdxs sents.length, qualifies sents i = true →
      0 < segScore sents i := by
    intro i hi _
    exact segScore_pos sents i ((mem_evenIdxs sents.length i).mp hi).1
  obtain ⟨hm, hp, hs, hmax, hfirst⟩ :=
    selStep_argmax (qualifies sents) (segScore sents)
      (evenIdxs sents.length) (evenIdxs_pairwise sents.length) hpos hex
  rw [bestPosition]
  refine ⟨hm, hp, ?_, ?_⟩
  · intro i hi hqi
    have := hmax i hi hqi
    rwa [hs] at this
  · intro i hi hqi hlt
    have := hfirst i hi hqi hlt
    rwa [hs] at this

lemma bestPosition_mem_or_zero (sents : List Str) :
    bestPosition sents = 0 ∨ bestPosition sents ∈ evenIdxs sents.length := by
  by_cases hex : ∃ i ∈ evenIdxs sents.length, qualifies sents i = true
  · exact Or.inr (bestPosition_argmax sents hex).1
  · left
    apply bestPosition_of_no_qualifier
    intro i hi
    by_contra hc
    exact hex ⟨i, hi, by simpa using hc⟩

lemma bestPosition_even (sents : List Str) : bestPosition sents % 2 = 0 := by
  rcases bestPosition_mem_or_zero sents with h | h
  · simp [h]
  · exact ((mem_evenIdxs sents.length _).mp h).2

lemma trim_eq_nil_iff (s : Str) : trim s = [] ↔ ∀ c ∈ s, isWs c = true := by
  constructor
  · intro h c hc
    rw [trim] at h
    have h1 : (s.dropWhile isWs).reverse.dropWhile isWs = [] := by
      have := congrArg List.reverse h
      simpa using this
    have h2 : ∀ d ∈ (s.dropWhile isWs).reverse, isWs d = true :=
      List.dropWhile_eq_nil_iff.mp h1
    have h3 : ∀ d ∈ s.dropWhile isWs, isWs d = true := by
      intro d hd
      exact h2 d (List.mem_reverse.mpr hd)
    have h4 : ∀ d ∈ s.takeWhile isWs, isWs d = true :=
      fun d hd => List.mem_takeWhile_imp hd
    have h5 : c ∈ s.takeWhile isWs ++ s.dropWhile isWs := by
      rwa [List.takeWhile_append_dropWhile]
    rcases List.mem_append.mp h5 with h | h
    · exact h4 c h
    · exact h3 c h
  · intro h
    rw [trim]
    have h1 : s.dropWhile isWs = [] :=
      List.dropWhile_eq_nil_iff.mpr h
    simp [h1]

lemma trim_nonempty_of_ge (s : Str) (h : 10 ≤ (trim s).length) : s ≠ [] := by
  intro hnil
  rw [hnil] at h
  simp [trim] at h

lemma isWs_toLower_of_isWs (c : Char) (h : isWs c = true) :
    isWs c.toLower = true := by
  have hc : c ∈ wsChars := List.mem_of_elem_eq_true h
  simp only [wsChars, List.mem_cons, List.not_mem_nil, or_false] at hc
  rcases hc with rfl | rfl | rfl | rfl | rfl | rfl | rfl | rfl | rfl | rfl | rfl | rfl | rfl | rfl | rfl | rfl | rfl | rfl | rfl | rfl | rfl | rfl | rfl | rfl | rfl
  all_goals decide

/-- Filtering out whitespace commutes with the single-space join:
only the inserted separators are dropped. -/
lemma filter_nonWs_joinSpace (parts : List Str) :
    (joinSpace parts).filter (fun c => !(isWs c)) =
      (parts.map (fun t => t.filter (fun c => !(isWs c)))).flatten := by
  induction parts with
  | nil => rfl
  | cons w ws ih =>
    cases ws with
    | nil => simp [joinSpace]
    | cons w2 ws2 =>
      show ((w ++ ' ' :: joinSpace (w2 :: ws2)).filter (fun c => !(isWs c))) = _
      rw [List.filter_append, List.filter_cons]
      have hsp : isWs ' ' = true := by decide
      simp only [hsp, Bool.not_true, Bool.false_eq_true, if_false]
      rw [ih]
      simp

lemma filter_nonWs_eq_self_of_pieces (piece : Str)
    (h : ∀ c ∈ piece, isWs c = false) :
    piece.filter (fun c => !(isWs c)) = piece := by
  apply List.filter_eq_self.mpr
  intro a ha
  simp [h a ha]

/-- The non-whitespace characters of the rebuilt segment are those of
the original segment plus those of the connector and of the keyword. -/
lemma nonWs_length_newSeg (sentence conn kw : Str) (k : Nat) :
    ((joinSpace ((jsSplit isWs sentence).take k) ++ ' ' :: conn ++
        ' ' :: kw ++ ' ' :: joinSpace ((jsSplit isWs sentence).drop k)).filter
      (fun c => !(isWs c))).length =
    (sentence.filter (fun c => !(isWs c))).length +
      (conn.filter (fun c => !(isWs c))).length +
      (kw.filter (fun c => !(isWs c))).length := by
  have hsp : isWs ' ' = true := by decide
  have hpieces : ∀ piece ∈ jsSplit isWs sentence,
      piece.filter (fun c => !(isWs c)) = piece := by
    intro piece hp
    exact filter_nonWs_eq_self_of_pieces piece
      (fun c hc => jsSplit_no_p isWs sentence piece hp c hc)
  have hmapid : (jsSplit isWs sentence).map
      (fun t => t.filter (fun c => !(isWs c))) = jsSplit isWs sentence := by
    conv_rhs => rw [← List.map_id (jsSplit isWs sentence)]
    exact List.map_congr_left hpieces
  have htd : (joinSpace ((jsSplit isWs sentence).take k)).filter
        (fun c => !(isWs c)) ++
      (joinSpace ((jsSplit isWs sentence).drop k)).filter
        (fun c => !(isWs c)) =
      sentence.filter (fun c => !(isWs c)) := by
    rw [filter_nonWs_joinSpace, filter_nonWs_joinSpace,
      ← List.flatten_append, ← List.map_append, List.take_append_drop,
      hmapid, flatten_jsSplit]
  have hlen := congrArg List.length htd
  simp only [List.length_append] at hlen
  simp only [List.filter_append, List.filter_cons, hsp, Bool.not_true,
    Bool.false_eq_true, if_false, List.length_append]
  omega

lemma avgWordsPerSentenceRaw_nonneg (text : Str) :
    0 ≤ avgWordsPerSentenceRaw text := by
  rw [avgWordsPerSentenceRaw]
  split
  · positivity
  · exact le_refl 0

lemma readabilityRaw_nonneg (text : Str) : 0 ≤ readabilityRaw text :=
  le_max_left 0 _

lemma readabilityRaw_le_100 (text : Str) : readabilityRaw text ≤ 100 :=
  max_le (by norm_num) (min_le_left _ _)

lemma readabilityRaw_le (text : Str) : readabilityRaw text ≤ 79.935 := by
  have h1 := avgWordsPerSentenceRaw_nonneg text
  apply max_le
  · norm_num
  · have h2 : 206.835 - 1.015 * avgWordsPerSentenceRaw text - 84.6 * 1.5 ≤
        (79.935 : ℚ) := by linarith
    exact le_trans (min_le_right _ _) h2

/-- C6: for every input text (and random stream), the rounded
readability metric lies between 0 and 100. -/
theorem readabilityScore_in_range (text : Str) (rnd : Nat → ℚ) :
    0 ≤ (analyzeSEO text rnd).metrics.readabilityScore ∧
    (analyzeSEO text rnd).metrics.readabilityScore ≤ 100 := by
  have heq : (analyzeSEO text rnd).metrics.readabilityScore =
      jsRound (readabilityRaw text) := rfl
  rw [heq, jsRound]
  constructor
  · apply Int.le_floor.mpr
    have := readabilityRaw_nonneg text
    push_cast
    linarith
  · have hlt : ⌊readabilityRaw text + 1 / 2⌋ < 101 := by
      apply Int.floor_lt.mpr
      have := readabilityRaw_le_100 text
      push_cast
      linarith
    omega

/-- C9: the clamp's upper bound 100 is never reached: the pre-clamp
score is `79.935 - 1.015 * avgWordsPerSentence ≤ 79.935`, so the
rounded readability metric never exceeds 80. -/
theorem readabilityScore_le_80 (text : Str) (rnd : Nat → ℚ) :
    (analyzeSEO text rnd).metrics.readabilityScore ≤ 80 := by
  have heq : (analyzeSEO text rnd).metrics.readabilityScore =
      jsRound (readabilityRaw text) := rfl
  rw [heq, jsRound]
  have hlt : ⌊readabilityRaw text + 1 / 2⌋ < 81 := by
    apply Int.floor_lt.mpr
    have := readabilityRaw_le text
    push_cast
    linarith
  omega

/-- C7: the word-count metric equals the number of non-empty maximal
whitespace-delimited tokens of the text. -/
theorem wordCount_eq_tokens (text : Str) (rnd : Nat → ℚ) :
    (analyzeSEO text rnd).metrics.wordCount = countRuns isWs text := by
  have heq : (analyzeSEO text rnd).metrics.wordCount =
      (wordsOf text).length := rfl
  rw [heq, wordsOf, filterLen_jsSplit]

/-- C8: the analyze endpoint fails with a validation error exactly on
empty or whitespace-only texts and on texts longer than 50,000
characters; every other input produces an analysis result. -/
theorem analyzeEndpoint_error_iff (text : Str) (rnd : Nat → ℚ) :
    (∃ e, analyzeEndpoint text rnd = .error e) ↔
    ((∀ c ∈ text, isWs c = true) ∨ 50000 < text.length) := by
  rw [analyzeEndpoint]
  by_cases hA : trim text = []
  · have hBl : (text.isEmpty || (trim text).isEmpty) = true := by
      simp [List.isEmpty_iff, hA]
    rw [hBl]
    simp only [if_true]
    constructor
    · intro _
      exact Or.inl ((trim_eq_nil_iff text).mp hA)
    · intro _
      exact ⟨.textRequired, rfl⟩
  · have hBl : (text.isEmpty || (trim text).isEmpty) = false := by
      have htne : text ≠ [] := by
        intro h
        exact hA (by simp [h, trim])
      simp [List.isEmpty_iff, hA, htne]
    rw [hBl]
    simp only [Bool.false_eq_true, if_false]
    by_cases hB : 50000 < text.length
    · rw [if_pos hB]
      constructor
      · intro _
        exact Or.inr hB
      · intro _
        exact ⟨.textTooLong, rfl⟩
    · rw [if_neg hB]
      constructor
      · rintro ⟨e, he⟩
        exact absurd he (by simp)
      · rintro (hws | hlen)
        · exact absurd ((trim_eq_nil_iff text).mpr hws) hA
        · exact absurd hlen hB

/-- C2: when the lowercased keyword occurs as a substring of some
whitespace-delimited word of the lowercased text, the insertion
returns the text unchanged with `inserted == false`, for every draw. -/
theorem insertKeyword_already_present (text keyword : Str) (u1 u2 : ℚ)
    (hk : keyword ≠ [])
    (h : (jsSplit isWs (lower text)).any
      (fun w => jsIncludes w (lower keyword)) = true) :
    insertKeywordResult text keyword u1 u2 = (text, false) := by
  have hins : insertKeywordIntelligently text keyword u1 u2 = text := by
    rw [insertKeywordIntelligently]
    simp only [h, if_true]
  rw [insertKeywordResult]
  simp [hins]

/-- Witness for C2, the spec's own scenario. -/
theorem insertKeyword_already_present_witness :
    ("cats".toList ≠ [] ∧
      (jsSplit isWs (lower "Cats are great pets.".toList)).any
        (fun w => jsIncludes w (lower "cats".toList)) = true) ∧
    insertKeywordResult "Cats are great pets.".toList "cats".toList 0 0 =
      ("Cats are great pets.".toList, false) :=
  ⟨⟨by decide, by decide⟩,
    insertKeyword_already_present "Cats are great pets.".toList
      "cats".toList 0 0 (by decide) (by decide)⟩

lemma bumpFreq_pos (acc : List (Str × Nat)) (w : Str)
    (hacc : ∀ e ∈ acc, 1 ≤ e.2) : ∀ e ∈ bumpFreq acc w, 1 ≤ e.2 := by
  intro e he
  rw [bumpFreq] at he
  split at he
  · rcases List.mem_map.mp he with ⟨e0, he0, hfe⟩
    have h0 := hacc e0 he0
    by_cases heq : (e0.1 == w) = true
    · rw [if_pos heq] at hfe
      subst hfe
      simp
    · rw [if_neg heq] at hfe
      subst hfe
      exact h0
  · rcases List.mem_append.mp he with he | he
    · exact hacc e he
    · rw [List.mem_singleton.mp he]

lemma wordFreq_pos (text : Str) : ∀ e ∈ wordFreq text, 1 ≤ e.2 := by
  rw [wordFreq]
  generalize hws : wordsOf text = ws
  clear hws
  have hgen : ∀ (ws : List Str) (acc : List (Str × Nat)),
      (∀ e ∈ acc, 1 ≤ e.2) →
      ∀ e ∈ ws.foldl (fun acc word =>
        let cw := cleanWord word
        if 3 < cw.length ∧ cw ∉ commonWords then bumpFreq acc cw
        else acc) acc, 1 ≤ e.2 := by
    intro ws
    induction ws with
    | nil => intro acc hacc e he; exact hacc e he
    | cons w ws ih =>
      intro acc hacc e he
      rw [List.foldl_cons] at he
      apply ih _ ?_ e he
      dsimp only
      split
      · exact bumpFreq_pos acc (cleanWord w) hacc
      · exact hacc
  exact hgen ws [] (by simp)

lemma topKeywordsOf_sorted (text : Str) (rnd : Nat → ℚ) :
    (topKeywordsOf text rnd).Pairwise
      (fun a b => b.frequency ≤ a.frequency) := by
  rw [topKeywordsOf]
  apply List.pairwise_map.mpr
  have hs : ((wordFreq text).mergeSort (fun a b => b.2 ≤ a.2)).Pairwise
      (fun a b : Str × Nat => b.2 ≤ a.2) := by
    have h := @List.sorted_mergeSort (Str × Nat)
      (fun a b => decide (b.2 ≤ a.2))
      (fun a b c hab hbc => by
        simp only [decide_eq_true_eq] at *
        omega)
      (fun a b => by
        rcases Nat.le_total b.2 a.2 with h | h <;> simp [h])
      (wordFreq text)
    exact h.imp (fun {a b} hab => by simpa using hab)
  have ht : (((wordFreq text).mergeSort (fun a b => b.2 ≤ a.2)).take
      10).Pairwise (fun a b : Str × Nat => b.2 ≤ a.2) :=
    hs.sublist (List.take_sublist _ _)
  have he : ((((wordFreq text).mergeSort (fun a b => b.2 ≤ a.2)).take
      10).enum).Pairwise (fun a b : Nat × (Str × Nat) => b.2.2 ≤ a.2.2) := by
    have hmap := List.pairwise_map
      (f := (Prod.snd : Nat × (Str × Nat) → Str × Nat))
      (R := fun a b : Str × Nat => b.2 ≤ a.2)
      (l := (((wordFreq text).mergeSort (fun a b => b.2 ≤ a.2)).take 10).enum)
    rw [List.enum_map_snd] at hmap
    exact hmap.mp ht
  exact he.imp (fun {a b} hab => hab)

lemma topKeywordsOf_length_le (text : Str) (rnd : Nat → ℚ) :
    (topKeywordsOf text rnd).length ≤ 10 := by
  rw [topKeywordsOf]
  simp [List.length_take]

lemma topKeywordsOf_freq_pos (text : Str) (rnd : Nat → ℚ) :
    ∀ k ∈ topKeywordsOf text rnd, 1 ≤ k.frequency := by
  intro k hk
  rw [topKeywordsOf] at hk
  rcases List.mem_map.mp hk with ⟨ie, hie, hfk⟩
  have h2 : ie.2 ∈ ((wordFreq text).mergeSort (fun a b => b.2 ≤ a.2)).take 10 :=
    List.snd_mem_of_mem_enum hie
  have h3 : ie.2 ∈ (wordFreq text).mergeSort (fun a b => b.2 ≤ a.2) :=
    List.mem_of_mem_take h2
  have h4 : ie.2 ∈ wordFreq text := List.mem_mergeSort.mp h3
  have h5 := wordFreq_pos text ie.2 h4
  rw [← hfk]
  exact h5

lemma curated_keywords_shape (rnd : Nat → ℚ) :
    ((curatedKeywordsOf rnd).take 8).map (fun k => k.keyword) =
      suggestedVocab.take 8 ∧
    (∀ k ∈ (curatedKeywordsOf rnd).take 8, k.frequency = 0) ∧
    ((curatedKeywordsOf rnd).take 8).length = 8 := by
  refine ⟨?_, ?_, ?_⟩
  · rw [curatedKeywordsOf, ← List.map_take, List.map_map]
    have hcomp : ∀ je : Nat × Str,
        ((fun k : KeywordCandidate => k.keyword) ∘ (fun je : Nat × Str =>
          ({ keyword := je.2, frequency := 0
             relevance := (⌊rnd (100 + 3 * je.1) * 80⌋ : ℚ) + 20
             searchVolume := ⌊rnd (100 + 3 * je.1 + 1) * 50000⌋ + 1000
             difficulty := ⌊rnd (100 + 3 * je.1 + 2) * 100⌋ + 1 } :
            KeywordCandidate))) je = Prod.snd je := fun je => rfl
    rw [List.map_congr_left (fun je _ => hcomp je)]
    rw [List.map_take, List.enum_map_snd]
  · intro k hk
    have hk2 : k ∈ curatedKeywordsOf rnd := List.mem_of_mem_take hk
    rw [curatedKeywordsOf] at hk2
    rcases List.mem_map.mp hk2 with ⟨je, _, hfk⟩
    rw [← hfk]
  · rw [List.length_take, curatedKeywordsOf]
    simp [suggestedVocab]

/-- C4: the keyword list is the extracted candidates (at most 10, each
of frequency at least 1, in non-increasing frequency order) followed by
the curated candidates (at most 8, frequency 0, in fixed vocabulary
order), hence of length at most 18. -/
theorem keywords_structure (text : Str) (rnd : Nat → ℚ) :
    (analyzeSEO text rnd).keywords =
      topKeywordsOf text rnd ++ (curatedKeywordsOf rnd).take 8 ∧
    (analyzeSEO text rnd).keywords.length ≤ 18 ∧
    (topKeywordsOf text rnd).length ≤ 10 ∧
    (∀ k ∈ topKeywordsOf text rnd, 1 ≤ k.frequency) ∧
    (topKeywordsOf text rnd).Pairwise
      (fun a b => b.frequency ≤ a.frequency) ∧
    ((curatedKeywordsOf rnd).take 8).map (fun k => k.keyword) =
      suggestedVocab.take 8 ∧
    (∀ k ∈ (curatedKeywordsOf rnd).take 8, k.frequency = 0) := by
  obtain ⟨hmap, hfreq0, hlen8⟩ := curated_keywords_shape rnd
  have hk : (analyzeSEO text rnd).keywords =
      topKeywordsOf text rnd ++ (curatedKeywordsOf rnd).take 8 := rfl
  refine ⟨hk, ?_, topKeywordsOf_length_le text rnd,
    topKeywordsOf_freq_pos text rnd, topKeywordsOf_sorted text rnd,
    hmap, hfreq0⟩
  rw [hk, List.length_append, hlen8]
  have := topKeywordsOf_length_le text rnd
  omega

/-- C5: every analysis yields exactly three suggestions, one per type
in order readability, length, keywords, with priorities determined by
the unrounded clamped readability score, the word count and the
extracted-candidate count exactly as the three rules state. -/
theorem suggestions_structure (text : Str) (rnd : Nat → ℚ) :
    ∃ s1 s2 s3 : Suggestion,
      (analyzeSEO text rnd).suggestions = [s1, s2, s3] ∧
      s1.type = .readability ∧ s2.type = .length ∧ s3.type = .keywords ∧
      (s1.priority = .high ↔ readabilityRaw text < 30) ∧
      (s1.priority = .medium ↔
        30 ≤ readabilityRaw text ∧ readabilityRaw text < 60) ∧
      (s1.priority = .low ↔ 60 ≤ readabilityRaw text) ∧
      (s2.priority = .medium ↔
        ((wordsOf text).length < 300 ∨ 2000 < (wordsOf text).length)) ∧
      (s2.priority = .low ↔
        (300 ≤ (wordsOf text).length ∧ (wordsOf text).length ≤ 2000)) ∧
      (s3.priority = .high ↔ (topKeywordsOf text rnd).length < 5) ∧
      (s3.priority = .low ↔ 5 ≤ (topKeywordsOf text rnd).length) := by
  refine ⟨_, _, _, rfl, rfl, rfl, rfl, ?_, ?_, ?_, ?_, ?_, ?_, ?_⟩
  · show (if readabilityRaw text < 30 then Priority.high
      else if readabilityRaw text < 60 then Priority.medium
      else Priority.low) = Priority.high ↔ readabilityRaw text < 30
    split_ifs with h1 h2 <;> simp_all
  · show (if readabilityRaw text < 30 then Priority.high
      else if readabilityRaw text < 60 then Priority.medium
      else Priority.low) = Priority.medium ↔
        30 ≤ readabilityRaw text ∧ readabilityRaw text < 60
    split_ifs with h1 h2 <;> simp_all <;> linarith
  · show (if readabilityRaw text < 30 then Priority.high
      else if readabilityRaw text < 60 then Priority.medium
      else Priority.low) = Priority.low ↔ 60 ≤ readabilityRaw text
    split_ifs with h1 h2 <;> simp_all <;> linarith
  · show (if (wordsOf text).length < 300 ∨ 2000 < (wordsOf text).length
      then Priority.medium else Priority.low) = Priority.medium ↔
        ((wordsOf text).length < 300 ∨ 2000 < (wordsOf text).length)
    split_ifs with h1 <;> simp_all
  · show (if (wordsOf text).length < 300 ∨ 2000 < (wordsOf text).length
      then Priority.medium else Priority.low) = Priority.low ↔
        (300 ≤ (wordsOf text).length ∧ (wordsOf text).length ≤ 2000)
    split_ifs with h1 <;> simp_all <;> omega
  · show (if (topKeywordsOf text rnd).length < 5 then Priority.high
      else Priority.low) = Priority.high ↔ (topKeywordsOf text rnd).length < 5
    split_ifs with h1 <;> simp_all
  · show (if (topKeywordsOf text rnd).length < 5 then Priority.high
      else Priority.low) = Priority.low ↔ 5 ≤ (topKeywordsOf text rnd).length
    split_ifs with h1 <;> simp_all

lemma insertKeyword_insert_eq (text keyword : Str) (u1 u2 : ℚ)
    (hdup : (jsSplit isWs (lower text)).any
      (fun w => jsIncludes w (lower keyword)) = false)
    (hguard : bestPosition (jsSplitKeep text) < (jsSplitKeep text).length ∧
      ¬((jsSplitKeep text).getD (bestPosition (jsSplitKeep text))
        []).isEmpty) :
    insertKeywordIntelligently text keyword u1 u2 =
      ((jsSplitKeep text).set (bestPosition (jsSplitKeep text))
        (newSegOf text keyword u1 u2)).flatten := by
  rw [insertKeywordIntelligently]
  simp only [hdup, Bool.false_eq_true, if_false]
  rw [if_pos hguard]

/-- C3: when an insertion is performed, the output is the
concatenation of the delimiter-retaining split pieces with only the
chosen (even-indexed, hence non-delimiter) piece replaced; every other
piece, delimiters included, is reproduced at its original position,
and the pieces concatenate back to the original text. -/
theorem insertKeyword_frame (text keyword : Str) (u1 u2 : ℚ)
    (hdup : (jsSplit isWs (lower text)).any
      (fun w => jsIncludes w (lower keyword)) = false)
    (hguard : bestPosition (jsSplitKeep text) < (jsSplitKeep text).length ∧
      ¬((jsSplitKeep text).getD (bestPosition (jsSplitKeep text))
        []).isEmpty) :
    insertKeywordIntelligently text keyword u1 u2 =
      ((jsSplitKeep text).set (bestPosition (jsSplitKeep text))
        (newSegOf text keyword u1 u2)).flatten ∧
    (jsSplitKeep text).flatten = text ∧
    bestPosition (jsSplitKeep text) % 2 = 0 ∧
    (∀ j, j ≠ bestPosition (jsSplitKeep text) →
      ((jsSplitKeep text).set (bestPosition (jsSplitKeep text))
        (newSegOf text keyword u1 u2)).getD j [] =
        (jsSplitKeep text).getD j []) := by
  refine ⟨insertKeyword_insert_eq text keyword u1 u2 hdup hguard,
    flatten_jsSplitKeep text, bestPosition_even _, ?_⟩
  intro j hj
  rw [List.getD_eq_getElem?_getD, List.getD_eq_getElem?_getD,
    List.getElem?_set_ne (Ne.symm hj)]

set_option maxRecDepth 40000 in
unseal Rat.add Rat.mul Rat.inv Rat.sub Rat.ofScientific in
/-- Witness for C3 at a concrete two-sentence text. -/
theorem insertKeyword_frame_witness :
    ((jsSplit isWs (lower "Hello there my good friend. Bye.".toList)).any
      (fun w => jsIncludes w (lower "zebra".toList)) = false ∧
     (bestPosition (jsSplitKeep "Hello there my good friend. Bye.".toList) <
        (jsSplitKeep "Hello there my good friend. Bye.".toList).length ∧
      ¬((jsSplitKeep "Hello there my good friend. Bye.".toList).getD
        (bestPosition (jsSplitKeep "Hello there my good friend. Bye.".toList))
        []).isEmpty)) ∧
    (insertKeywordIntelligently "Hello there my good friend. Bye.".toList
        "zebra".toList 0 0 =
      ((jsSplitKeep "Hello there my good friend. Bye.".toList).set
        (bestPosition (jsSplitKeep "Hello there my good friend. Bye.".toList))
        (newSegOf "Hello there my good friend. Bye.".toList
          "zebra".toList 0 0)).flatten ∧
    (jsSplitKeep "Hello there my good friend. Bye.".toList).flatten =
      "Hello there my good friend. Bye.".toList ∧
    bestPosition (jsSplitKeep "Hello there my good friend. Bye.".toList) % 2 =
      0 ∧
    (∀ j, j ≠ bestPosition
        (jsSplitKeep "Hello there my good friend. Bye.".toList) →
      ((jsSplitKeep "Hello there my good friend. Bye.".toList).set
        (bestPosition (jsSplitKeep "Hello there my good friend. Bye.".toList))
        (newSegOf "Hello there my good friend. Bye.".toList
          "zebra".toList 0 0)).getD j [] =
        (jsSplitKeep "Hello there my good friend. Bye.".toList).getD j [])) :=
  ⟨⟨by decide, by decide, by decide⟩,
    insertKeyword_frame "Hello there my good friend. Bye.".toList
      "zebra".toList 0 0 (by decide) ⟨by decide, by decide⟩⟩

lemma jsSplitKeep_length_pos (s : Str) : 0 < (jsSplitKeep s).length :=
  List.length_pos.mpr (jsSplitKeep_ne_nil s)

lemma dup_check_false_of_ws_keyword (text keyword : Str)
    (hws : ∃ c ∈ keyword, isWs c = true) :
    (jsSplit isWs (lower text)).any
      (fun w => jsIncludes w (lower keyword)) = false := by
  apply List.any_eq_false.mpr
  intro w hw
  intro hinc
  obtain ⟨c, hc, hcws⟩ := hws
  have hmem : c.toLower ∈ lower keyword :=
    List.mem_map_of_mem Char.toLower hc
  have hlws : isWs c.toLower = true := isWs_toLower_of_isWs c hcws
  have hsub : lower keyword <:+: w := of_decide_eq_true hinc
  have hmw : c.toLower ∈ w := hsub.subset hmem
  have := jsSplit_no_p isWs (lower text) w hw c.toLower hmw
  rw [hlws] at this
  exact absurd this (by simp)

lemma connector_nonWs_pos :
    ∀ i < 5, 1 ≤ ((connectors.getD i []).filter
      (fun c => !(isWs c))).length := by decide

lemma guard_holds_of_first_nonempty (text : Str)
    (h0 : ¬((jsSplitKeep text).getD 0 []).isEmpty) :
    bestPosition (jsSplitKeep text) < (jsSplitKeep text).length ∧
    ¬((jsSplitKeep text).getD (bestPosition (jsSplitKeep text))
      []).isEmpty := by
  by_cases hex : ∃ i ∈ evenIdxs (jsSplitKeep text).length,
      qualifies (jsSplitKeep text) i = true
  · obtain ⟨hm, hq, -, -⟩ := bestPosition_argmax (jsSplitKeep text) hex
    refine ⟨((mem_evenIdxs _ _).mp hm).1, ?_⟩
    rw [qualifies] at hq
    have := (Bool.and_eq_true _ _).mp hq
    simpa using this.1
  · have hb0 : bestPosition (jsSplitKeep text) = 0 := by
      apply bestPosition_of_no_qualifier
      intro i hi
      by_contra hc
      exact hex ⟨i, hi, by simpa using hc⟩
    rw [hb0]
    exact ⟨jsSplitKeep_length_pos text, h0⟩

lemma updated_ne_text (text keyword : Str) (u1 u2 : ℚ)
    (hu2a : 0 ≤ u2) (hu2b : u2 < 1)
    (hb : bestPosition (jsSplitKeep text) < (jsSplitKeep text).length) :
    (((jsSplitKeep text).set (bestPosition (jsSplitKeep text))
      (newSegOf text keyword u1 u2)).flatten) ≠ text := by
  set sents := jsSplitKeep text with hsents
  set b := bestPosition (jsSplitKeep text) with hbdef
  set sentence := sents.getD b [] with hsent
  have hget : sentence = sents[b] := List.getD_eq_getElem sents [] hb
  have hidx : (⌊u2 * 5⌋).toNat < 5 := by
    have h1 : (0 : ℤ) ≤ ⌊u2 * 5⌋ := by
      apply Int.le_floor.mpr
      push_cast
      positivity
    have h2 : ⌊u2 * 5⌋ < 5 := by
      apply Int.floor_lt.mpr
      push_cast
      linarith
    exact (Int.toNat_lt h1).mpr h2
  have hconn := connector_nonWs_pos (⌊u2 * 5⌋).toNat hidx
  intro heqtext
  have htext : text = sents.flatten := (flatten_jsSplitKeep text).symm
  have hset : sents.set b (newSegOf text keyword u1 u2) =
      sents.take b ++ newSegOf text keyword u1 u2 :: sents.drop (b + 1) := by
    rw [List.set_eq_take_append_cons_drop]
    rw [if_pos hb]
  have hsplit2 : sents = sents.take b ++ sentence :: sents.drop (b + 1) := by
    conv_lhs => rw [← List.take_append_drop b sents]
    rw [List.drop_eq_getElem_cons hb, ← hget]
  have hlen1 : (((sents.set b
        (newSegOf text keyword u1 u2)).flatten).filter
      (fun c => !(isWs c))).length =
      (text.filter (fun c => !(isWs c))).length := by rw [heqtext]
  conv_rhs at hlen1 => rw [htext]
  conv_lhs at hlen1 => rw [hset]
  conv_rhs at hlen1 => rw [hsplit2]
  simp only [List.flatten_append, List.flatten_cons, List.filter_append,
    List.length_append] at hlen1
  have hnew : ((newSegOf text keyword u1 u2).filter
      (fun c => !(isWs c))).length =
      (sentence.filter (fun c => !(isWs c))).length +
      (((connectors.getD (⌊u2 * 5⌋).toNat []).filter
        (fun c => !(isWs c))).length) +
      ((keyword.filter (fun c => !(isWs c))).length) := by
    rw [newSegOf]
    exact nonWs_length_newSeg sentence (connectors.getD (⌊u2 * 5⌋).toNat [])
      keyword _
  rw [hnew] at hlen1
  omega

/-- C10: a keyword containing whitespace (such as the curated
two-word phrases) never triggers the already-present check, because no
whitespace-delimited word contains whitespace; whenever the first
segment is non-empty the insertion therefore proceeds and reports
`inserted == true`, even if the keyword already occurs verbatim in the
text, so repeated calls accumulate duplicates. -/
theorem multiword_keyword_reinserted (text keyword : Str) (u1 u2 : ℚ)
    (hws : ∃ c ∈ keyword, isWs c = true) (hu2a : 0 ≤ u2) (hu2b : u2 < 1) :
    (jsSplit isWs (lower text)).any
      (fun w => jsIncludes w (lower keyword)) = false ∧
    (¬((jsSplitKeep text).getD 0 []).isEmpty →
      (insertKeywordResult text keyword u1 u2).2 = true) := by
  have hdup := dup_check_false_of_ws_keyword text keyword hws
  refine ⟨hdup, ?_⟩
  intro h0
  have hguard := guard_holds_of_first_nonempty text h0
  have hins := insertKeyword_insert_eq text keyword u1 u2 hdup hguard
  have hne := updated_ne_text text keyword u1 u2 hu2a hu2b hguard.1
  rw [insertKeywordResult]
  simp only [bne_iff_ne, ne_eq, decide_eq_true_eq]
  rw [hins]
  exact hne

set_option maxRecDepth 40000 in
unseal Rat.add Rat.mul Rat.inv Rat.sub Rat.ofScientific in
/-- Witness for C10: the curated phrase `digital marketing` already
occurs verbatim, yet the check does not fire and insertion happens. -/
theorem multiword_keyword_reinserted_witness :
    ((∃ c ∈ "digital marketing".toList, isWs c = true) ∧
      (0 : ℚ) ≤ 0 ∧ (0 : ℚ) < 1) ∧
    ((jsSplit isWs
        (lower "We love digital marketing every single day.".toList)).any
      (fun w => jsIncludes w (lower "digital marketing".toList)) = false ∧
    (¬((jsSplitKeep
          "We love digital marketing every single day.".toList).getD 0
        []).isEmpty →
      (insertKeywordResult
        "We love digital marketing every single day.".toList
        "digital marketing".toList 0 0).2 = true)) :=
  ⟨⟨⟨' ', by decide, by decide⟩, by norm_num, by norm_num⟩,
    multiword_keyword_reinserted
      "We love digital marketing every single day.".toList
      "digital marketing".toList 0 0
      ⟨' ', by decide, by decide⟩ (by norm_num) (by norm_num)⟩

set_option maxRecDepth 40000 in
unseal Rat.add Rat.mul Rat.inv Rat.sub Rat.ofScientific in
/-- Counterexample to C1 as stated: on this two-sentence text both
segments qualify, the claimed positionScore formula (indices and total
ranging over the retained segments) gives the second segment the
strictly larger score, yet the code selects the first segment, because
it computes positionScore from the raw split-array index `i` and raw
array length (delimiter entries included). -/
theorem positionScore_formula_counterexample :
    bestPosition (jsSplitKeep ("one two three four five six seven eight nine ten eleven. alpha beta gamma delta epsilon zeta".toList)) = 0 ∧
    qualifies (jsSplitKeep ("one two three four five six seven eight nine ten eleven. alpha beta gamma delta epsilon zeta".toList)) 0 = true ∧
    qualifies (jsSplitKeep ("one two three four five six seven eight nine ten eleven. alpha beta gamma delta epsilon zeta".toList)) 2 = true ∧
    (retainedSegs ("one two three four five six seven eight nine ten eleven. alpha beta gamma delta epsilon zeta".toList)).length = 2 ∧
    (retainedSegs ("one two three four five six seven eight nine ten eleven. alpha beta gamma delta epsilon zeta".toList)).getD 1 [] =
      (jsSplitKeep ("one two three four five six seven eight nine ten eleven. alpha beta gamma delta epsilon zeta".toList)).getD 2 [] ∧
    specSegScore ("one two three four five six seven eight nine ten eleven. alpha beta gamma delta epsilon zeta".toList) 0 <
      specSegScore ("one two three four five six seven eight nine ten eleven. alpha beta gamma delta epsilon zeta".toList) 1 := by
  decide

/-- C1 (amended): the scoring loop scores each retained segment of
trimmed length at least 10 as `0.6*lengthScore + 0.4*positionScore`,
but with `positionScore = 1 - |i - L/2| / L` computed from the raw
index `i` of the segment in the delimiter-retaining split array and
that array's total length `L` (delimiter entries included), as
embodied in `segScore`; among the qualifying even indices it selects
the one of maximal score, ties resolving to the lowest index. -/
theorem insertKeyword_selects_argmax (text : Str)
    (hex : ∃ i ∈ evenIdxs (jsSplitKeep text).length,
      qualifies (jsSplitKeep text) i = true) :
    bestPosition (jsSplitKeep text) ∈ evenIdxs (jsSplitKeep text).length ∧
    qualifies (jsSplitKeep text) (bestPosition (jsSplitKeep text)) = true ∧
    (∀ i ∈ evenIdxs (jsSplitKeep text).length,
      qualifies (jsSplitKeep text) i = true →
      segScore (jsSplitKeep text) i ≤
        segScore (jsSplitKeep text) (bestPosition (jsSplitKeep text))) ∧
    (∀ i ∈ evenIdxs (jsSplitKeep text).length,
      qualifies (jsSplitKeep text) i = true →
      i < bestPosition (jsSplitKeep text) →
      segScore (jsSplitKeep text) i <
        segScore (jsSplitKeep text) (bestPosition (jsSplitKeep text))) :=
  bestPosition_argmax (jsSplitKeep text) hex

set_option maxRecDepth 40000 in
unseal Rat.add Rat.mul Rat.inv Rat.sub Rat.ofScientific in
/-- Witness for the amended C1 on the counterexample text. -/
theorem insertKeyword_selects_argmax_witness :
    (∃ i ∈ evenIdxs (jsSplitKeep ("one two three four five six seven eight nine ten eleven. alpha beta gamma delta epsilon zeta".toList)).length,
      qualifies (jsSplitKeep ("one two three four five six seven eight nine ten eleven. alpha beta gamma delta epsilon zeta".toList)) i = true) ∧
    (bestPosition (jsSplitKeep ("one two three four five six seven eight nine ten eleven. alpha beta gamma delta epsilon zeta".toList)) ∈
      evenIdxs (jsSplitKeep ("one two three four five six seven eight nine ten eleven. alpha beta gamma delta epsilon zeta".toList)).length ∧
    qualifies (jsSplitKeep ("one two three four five six seven eight nine ten eleven. alpha beta gamma delta epsilon zeta".toList))
      (bestPosition (jsSplitKeep ("one two three four five six seven eight nine ten eleven. alpha beta gamma delta epsilon zeta".toList))) = true ∧
    (∀ i ∈ evenIdxs (jsSplitKeep ("one two three four five six seven eight nine ten eleven. alpha beta gamma delta epsilon zeta".toList)).length,
      qualifies (jsSplitKeep ("one two three four five six seven eight nine ten eleven. alpha beta gamma delta epsilon zeta".toList)) i = true →
      segScore (jsSplitKeep ("one two three four five six seven eight nine ten eleven. alpha beta gamma delta epsilon zeta".toList)) i ≤
        segScore (jsSplitKeep ("one two three four five six seven eight nine ten eleven. alpha beta gamma delta epsilon zeta".toList))
          (bestPosition (jsSplitKeep ("one two three four five six seven eight nine ten eleven. alpha beta gamma delta epsilon zeta".toList)))) ∧
    (∀ i ∈ evenIdxs (jsSplitKeep ("one two three four five six seven eight nine ten eleven. alpha beta gamma delta epsilon zeta".toList)).length,
      qualifies (jsSplitKeep ("one two three four five six seven eight nine ten eleven. alpha beta gamma delta epsilon zeta".toList)) i = true →
      i < bestPosition (jsSplitKeep ("one two three four five six seven eight nine ten eleven. alpha beta gamma delta epsilon zeta".toList)) →
      segScore (jsSplitKeep ("one two three four five six seven eight nine ten eleven. alpha beta gamma delta epsilon zeta".toList)) i <
        segScore (jsSplitKeep ("one two three four five six seven eight nine ten eleven. alpha beta gamma delta epsilon zeta".toList))
          (bestPosition (jsSplitKeep ("one two three four five six seven eight nine ten eleven. alpha beta gamma delta epsilon zeta".toList))))) :=
  ⟨⟨0, by decide, by decide⟩,
    insertKeyword_selects_argmax
      ("one two three four five six seven eight nine ten eleven. alpha beta gamma delta epsilon zeta".toList)
      ⟨0, by decide, by decide⟩⟩
